import Mathlib

/-!
Verification of the snapshot versioning engine of `scripts/snapshot_manager.py`
(`SkillSnapshotManager`).

The Python code is shallowly embedded: pure logic (tag parsing, version
allocation, change detection, cache handling) is translated directly; the
filesystem, the git backend and the OS clock are made explicit parameters
(file lists, tag lists, abstract hash function, explicit time values).
OS-level error paths of filesystem calls that the code only catches to return
a default are modelled by explicit flags (`readable`, `statOk`, `netOk`,
`commitOk`) mirroring the corresponding `try/except` branches.
-/

namespace SkillSnapshot

/-! ## Configuration constants (snapshot_manager.py lines 50-62) -/

/-- Constant `CACHE_VERSION = "1.0"` (line 55). -/
def CACHE_VERSION : String := "1.0"

/-- Constant `SELF_SKILL_NAME = "skill-snapshot"` (line 62). -/
def SELF_SKILL_NAME : String := "skill-snapshot"

/-- Stale-lock threshold: `600` seconds (line 286). -/
def STALE_LOCK_SECONDS : ℚ := 600

/-! ## Error messages (abbreviated from the Python message strings) -/

def selfSaveMsg : String := "Cannot save skill-snapshot - self-modification is not allowed."

def lockConflictMsg : String := "Another snapshot operation is in progress. Please wait."

def skillNotFoundMsg : String := "Skill not found."

def repoNotInitMsg : String := "Snapshot repository not initialized. Run init first."

def networkMsg : String := "No network connectivity."

def commitFailMsg : String := "Error committing changes."

def selfRestoreMsg : String := "Cannot restore skill-snapshot - self-modification is not allowed."

def selfDeleteMsg : String := "Cannot delete snapshots of skill-snapshot - self-modification is not allowed."

def versionMismatchMsg : String := "Version does not belong to skill."

def tagNotFoundMsg : String := "Version not found."

def snapshotContentMissingMsg : String := "Skill content not found in snapshot."

/-! ## Character-level models of the Python string operations used -/

/-- Strip a literal leading pattern: `dropPre pat s = some rest` iff
`s = pat ++ rest`.  Models an anchored literal match (`str.startswith`, and
the `re.escape`d head of the version-tag regex). -/
def dropPre : List Char → List Char → Option (List Char)
  | [], rest => some rest
  | _ :: _, [] => none
  | p :: ps, c :: cs => if c = p then dropPre ps cs else none

/-- Model of `version.startswith(pre)` (lines 901, 995, 1183). -/
def startsWithStr (s pre : String) : Bool := (dropPre pre.data s.data).isSome

/-- Model of `c in s` for a single character, e.g. `"/" in version` (line 997). -/
def strContainsChar (s : String) (c : Char) : Bool := s.data.any (fun x => x = c)

/-- Decimal value of a digit string; models `int(<digits>)`. -/
def digitsToNat (l : List Char) : Nat := l.foldl (fun a c => a * 10 + (c.toNat - 48)) 0

/-! ## Version-tag parsing and allocation (`_save_impl`, lines 746-759)

`pattern = re.compile(rf"^{re.escape(skill_name)}/v(\d+)$")`: a tag matches
iff it is literally `skill ++ "/v" ++ digits` with a nonempty digit suffix. -/

/-- Result of matching one tag against the anchored pattern
`^<skill>/v(\d+)$` and applying `int` to the captured group. -/
def parseVersionTag (skill tag : String) : Option Nat :=
  match dropPre (skill.data ++ ['/', 'v']) tag.data with
  | none => none
  | some rest =>
      if rest ≠ [] ∧ rest.all Char.isDigit then some (digitsToNat rest) else none

/-- The `max_ver` loop of `_save_impl` (lines 750-757): fold over the listed
tags, keeping the largest parsed version, starting from 0. -/
def maxVersion (skill : String) (tags : List String) : Nat :=
  tags.foldl
    (fun mx t =>
      match parseVersionTag skill t with
      | some v => if v > mx then v else mx
      | none => mx) 0

/-- Allocation `next_ver = max_ver + 1` (line 759). -/
def nextVersion (skill : String) (tags : List String) : Nat := maxVersion skill tags + 1

/-! ## Lock (`_acquire_lock` lines 278-294, `_release_lock` lines 296-303)

The lock file is modelled by its mtime and text content; the clock and the
process identity by `LockEnv`.  The `except (OSError, PermissionError)`
branch (filesystem failure) is outside the model. -/

structure FsLock where
  mtime : ℚ
  content : String
deriving DecidableEq

structure LockEnv where
  now : ℚ
  pid : Nat
  nowIso : String
deriving DecidableEq

/-- The lock record written by `_acquire_lock` (line 291):
`f"{os.getpid()}\n{datetime.now().isoformat()}"`, with mtime the write time. -/
def lockRecord (env : LockEnv) : FsLock :=
  ⟨env.now, toString env.pid ++ "\n" ++ env.nowIso⟩

/-- Model of `_acquire_lock`: if a lock file exists and is at most 600 seconds old,
fail; if it is older than 600 seconds, delete it (stale reclamation) and
create a fresh lock; if absent, create a fresh lock. -/
def acquireLock (env : LockEnv) (lockFile : Option FsLock) : Bool × Option FsLock :=
  match lockFile with
  | some lf =>
      if env.now - lf.mtime > STALE_LOCK_SECONDS then (true, some (lockRecord env))
      else (false, some lf)
  | none => (true, some (lockRecord env))

/-- Model of `_release_lock`: unconditionally removes the lock file (idempotent). -/
def releaseLock (_ : Option FsLock) : Option FsLock := none

/-! ## Claim C6 -/

/-- C6: `_acquire_lock` returns false without blocking when a lock file
younger than 600 seconds exists; when the lock file is older than 600
seconds it is deleted and acquisition succeeds by writing a new lock record
containing the process id and a timestamp. -/
theorem acquire_lock_staleness_spec (env : LockEnv) :
    (∀ lf : FsLock, env.now - lf.mtime < STALE_LOCK_SECONDS →
        acquireLock env (some lf) = (false, some lf)) ∧
    (∀ lf : FsLock, STALE_LOCK_SECONDS < env.now - lf.mtime →
        acquireLock env (some lf) = (true, some (lockRecord env))) ∧
    acquireLock env none = (true, some (lockRecord env)) ∧
    (lockRecord env).content = toString env.pid ++ "\n" ++ env.nowIso := by
  refine ⟨fun lf h => ?_, fun lf h => ?_, rfl, rfl⟩
  · simp [acquireLock, not_lt_of_gt h]
  · simp [acquireLock, h]

/-- C6 witness: a lock with mtime 700 seconds in the past is reclaimed; one
with mtime 60 seconds in the past causes failure. -/
theorem acquire_lock_staleness_witness :
    acquireLock ⟨1000, 42, "T"⟩ (some ⟨300, "old"⟩) =
      (true, some (lockRecord ⟨1000, 42, "T"⟩)) ∧
    acquireLock ⟨1000, 42, "T"⟩ (some ⟨940, "held"⟩) = (false, some ⟨940, "held"⟩) := by
  constructor
  · exact (acquire_lock_staleness_spec ⟨1000, 42, "T"⟩).2.1 ⟨300, "old"⟩
      (by norm_num [STALE_LOCK_SECONDS])
  · exact (acquire_lock_staleness_spec ⟨1000, 42, "T"⟩).1 ⟨940, "held"⟩
      (by norm_num [STALE_LOCK_SECONDS])

/-! ## Helper lemmas about `dropPre` and `Nat.max` folds -/

theorem dropPre_append : ∀ p r : List Char, dropPre p (p ++ r) = some r := by
  intro p
  induction p with
  | nil => intro r; rfl
  | cons c cs ih => intro r; simp [dropPre, ih]

theorem dropPre_eq_some : ∀ p s r : List Char, dropPre p s = some r → s = p ++ r := by
  intro p
  induction p with
  | nil =>
      intro s r h
      simp only [dropPre] at h
      simp [Option.some.inj h]
  | cons q qs ih =>
      intro s r h
      cases s with
      | nil => simp [dropPre] at h
      | cons c cs =>
          simp only [dropPre] at h
          by_cases hc : c = q
          · rw [if_pos hc] at h
            subst hc
            simp [ih cs r h]
          · rw [if_neg hc] at h
            exact absurd h (by simp)

theorem natMax_right {a b : Nat} (h : a ≤ b) : Nat.max a b = b := Nat.max_eq_right h

theorem natMax_left {a b : Nat} (h : b ≤ a) : Nat.max a b = a := Nat.max_eq_left h

theorem le_foldl_max : ∀ (l : List Nat) (a : Nat), a ≤ l.foldl Nat.max a := by
  intro l
  induction l with
  | nil => intro a; exact le_rfl
  | cons x xs ih =>
      intro a
      exact le_trans (Nat.le_max_left a x) (ih (Nat.max a x))

theorem mem_le_foldl_max : ∀ (l : List Nat) (a x : Nat), x ∈ l → x ≤ l.foldl Nat.max a := by
  intro l
  induction l with
  | nil => intro a x hx; cases hx
  | cons y ys ih =>
      intro a x hx
      rcases List.mem_cons.mp hx with h | h
      · subst h
        exact le_trans (Nat.le_max_right a x) (le_foldl_max ys (Nat.max a x))
      · exact ih (Nat.max a y) x h

theorem foldl_max_attained : ∀ (l : List Nat) (a : Nat),
    l.foldl Nat.max a = a ∨ l.foldl Nat.max a ∈ l := by
  intro l
  induction l with
  | nil => intro a; exact Or.inl rfl
  | cons x xs ih =>
      intro a
      rcases ih (Nat.max a x) with h | h
      · by_cases hax : a ≤ x
        · refine Or.inr ?_
          rw [List.foldl_cons, h, natMax_right hax]
          exact List.mem_cons_self x xs
        · refine Or.inl ?_
          rw [List.foldl_cons, h, natMax_left (by omega)]
      · exact Or.inr (List.mem_cons_of_mem x h)

theorem foldl_max_le : ∀ (l : List Nat) (a b : Nat),
    a ≤ b → (∀ x ∈ l, x ≤ b) → l.foldl Nat.max a ≤ b := by
  intro l
  induction l with
  | nil => intro a b hab _; exact hab
  | cons x xs ih =>
      intro a b hab hall
      refine ih (Nat.max a x) b (Nat.max_le.mpr ⟨hab, hall x (List.mem_cons_self x xs)⟩) ?_
      exact fun y hy => hall y (List.mem_cons_of_mem x hy)

/-- The `max_ver` fold equals the `Nat.max` fold over the parses. -/
theorem maxVersion_eq_foldl (skill : String) : ∀ (tags : List String) (a : Nat),
    tags.foldl
      (fun mx t =>
        match parseVersionTag skill t with
        | some v => if v > mx then v else mx
        | none => mx) a
      = (tags.filterMap (parseVersionTag skill)).foldl Nat.max a := by
  intro tags
  induction tags with
  | nil => intro a; rfl
  | cons t ts ih =>
      intro a
      simp only [List.foldl_cons, List.filterMap_cons]
      cases hp : parseVersionTag skill t with
      | none => simpa using ih a
      | some v =>
          simp only [List.foldl_cons]
          have hmx : (if v > a then v else a) = Nat.max a v := by
            by_cases h : a < v
            · rw [if_pos h, natMax_right (Nat.le_of_lt h)]
            · rw [if_neg h, natMax_left (by omega)]
          rw [hmx]
          exact ih (Nat.max a v)

/-- Appending one parsable tag updates the running maximum. -/
theorem maxVersion_append_tag (skill t : String) (tags : List String) (n : Nat)
    (ht : parseVersionTag skill t = some n) :
    maxVersion skill (tags ++ [t]) =
      if n > maxVersion skill tags then n else maxVersion skill tags := by
  rw [maxVersion, List.foldl_append]
  simp only [List.foldl_cons, List.foldl_nil, ht]
  rfl

/-! ## Claim C3 -/

/-- C3: the allocated next version equals one plus the maximum numeric suffix
among tags exactly matching the anchored pattern `<skill>/v<digits>` (0 if
none match); malformed tags are ignored; every matching tag version is below
the next allocation (strict monotonicity across successive saves); erasing a
non-latest tag does not change the allocation; and a well-formed tag parses
to exactly its digit suffix. -/
theorem next_version_allocation_spec (skill : String) (tags : List String) :
    nextVersion skill tags = (tags.filterMap (parseVersionTag skill)).foldl Nat.max 0 + 1 ∧
    (∀ t, parseVersionTag skill t = none →
        nextVersion skill (t :: tags) = nextVersion skill tags) ∧
    (∀ t ∈ tags, ∀ v, parseVersionTag skill t = some v → v < nextVersion skill tags) ∧
    (∀ t, parseVersionTag skill t = some (nextVersion skill tags) →
        nextVersion skill (tags ++ [t]) = nextVersion skill tags + 1) ∧
    (∀ t ∈ tags, ∀ v, parseVersionTag skill t = some v → v < maxVersion skill tags →
        nextVersion skill (tags.erase t) = nextVersion skill tags) ∧
    (∀ ds : String, ds.data ≠ [] → ds.data.all Char.isDigit = true →
        parseVersionTag skill (skill ++ "/v" ++ ds) = some (digitsToNat ds.data)) := by
  have hfold : ∀ ts : List String,
      maxVersion skill ts = (ts.filterMap (parseVersionTag skill)).foldl Nat.max 0 :=
    fun ts => maxVersion_eq_foldl skill ts 0
  refine ⟨by rw [nextVersion, hfold], ?_, ?_, ?_, ?_, ?_⟩
  · intro t ht
    simp [nextVersion, maxVersion, List.foldl_cons, ht]
  · intro t ht v hv
    have hvmem : v ∈ tags.filterMap (parseVersionTag skill) :=
      List.mem_filterMap.mpr ⟨t, ht, hv⟩
    have := mem_le_foldl_max (tags.filterMap (parseVersionTag skill)) 0 v hvmem
    rw [nextVersion, hfold]
    omega
  · intro t ht
    rw [nextVersion, maxVersion_append_tag skill t tags _ ht,
      if_pos (show nextVersion skill tags > maxVersion skill tags from Nat.lt_succ_self _)]
  · intro t ht v hv hlt
    have hM : maxVersion skill tags ∈ tags.filterMap (parseVersionTag skill) := by
      rcases foldl_max_attained (tags.filterMap (parseVersionTag skill)) 0 with h | h
      · rw [hfold tags] at hlt
        omega
      · rw [hfold tags]
        exact h
    rcases List.mem_filterMap.mp hM with ⟨u, hu, hpu⟩
    have hut : u ≠ t := by
      intro he
      rw [he, hv] at hpu
      have hvm : v = maxVersion skill tags := Option.some.inj hpu
      omega
    have hmem : u ∈ tags.erase t := (List.mem_erase_of_ne hut).mpr hu
    have hle : maxVersion skill (tags.erase t) ≤ maxVersion skill tags := by
      rw [hfold, hfold tags]
      refine foldl_max_le _ 0 _ (Nat.zero_le _) ?_
      intro x hx
      rcases List.mem_filterMap.mp hx with ⟨w, hw, hpw⟩
      exact mem_le_foldl_max _ 0 x
        (List.mem_filterMap.mpr ⟨w, (List.erase_sublist t tags).mem hw, hpw⟩)
    have hge : maxVersion skill tags ≤ maxVersion skill (tags.erase t) := by
      rw [hfold (tags.erase t)]
      exact mem_le_foldl_max _ 0 _ (List.mem_filterMap.mpr ⟨u, hmem, hpu⟩)
    rw [nextVersion, nextVersion, le_antisymm hle hge]
  · intro ds hne hdig
    have hdata : (skill ++ "/v" ++ ds).data = (skill.data ++ ['/', 'v']) ++ ds.data := rfl
    have hD : dropPre (skill.data ++ ['/', 'v']) (skill.data ++ '/' :: 'v' :: ds.data) =
        some ds.data := by
      have h0 := dropPre_append (skill.data ++ ['/', 'v']) ds.data
      simpa using h0
    simp [parseVersionTag, hdata, hD, hne, hdig]

/-- C3 witness: with tags `alpha/v3`, `beta/v9`, `alpha/vx`, `alpha/v1`,
the next version for `alpha` is 4; 3 is below it; erasing the non-latest
`alpha/v1` leaves the allocation unchanged. -/
theorem next_version_allocation_witness :
    nextVersion "alpha" ["alpha/v3", "beta/v9", "alpha/vx", "alpha/v1"] = 4 ∧
    (3 : Nat) < nextVersion "alpha" ["alpha/v3", "beta/v9", "alpha/vx", "alpha/v1"] ∧
    nextVersion "alpha" (["alpha/v3", "beta/v9", "alpha/vx", "alpha/v1"].erase "alpha/v1") =
      nextVersion "alpha" ["alpha/v3", "beta/v9", "alpha/vx", "alpha/v1"] := by
  refine ⟨by decide, ?_, ?_⟩
  · exact (next_version_allocation_spec "alpha" _).2.2.1 "alpha/v3" (by decide) 3 (by decide)
  · exact (next_version_allocation_spec "alpha" _).2.2.2.2.1 "alpha/v1" (by decide) 1
      (by decide) (by decide)

/-! ## Diff version resolution (`diff`, lines 1163-1181)

```
def ver_key(t): try: return int(t.split("/v")[1]) except ...: return 0
tags.sort(key=ver_key); full_tag = tags[-1]
```
`splitVTag` models Python `str.split("/v")` (left-to-right, non-overlapping
occurrences); `verKey` models `ver_key` (`int` of the second segment, 0 on
failure — `int` accepting only plain digit strings here). -/

/-- Python-style split on the two-character separator `"/v"`;
`acc` accumulates the current segment in reverse. -/
def splitVTag : List Char → List Char → List (List Char)
  | [], acc => [acc.reverse]
  | [c], acc => [(c :: acc).reverse]
  | c :: d :: rest, acc =>
      if c = '/' ∧ d = 'v' then acc.reverse :: splitVTag rest []
      else splitVTag (d :: rest) (c :: acc)

/-- Model of `ver_key`: numeric value of the segment after the first `"/v"`, 0 when
absent or not a digit string (the `except (ValueError, IndexError)` branch). -/
def verKey (t : String) : Nat :=
  match splitVTag t.data [] with
  | _ :: seg :: _ =>
      if seg ≠ [] ∧ seg.all Char.isDigit then digitsToNat seg else 0
  | _ => 0

/-- Key order used by `tags.sort(key=ver_key)`. -/
def verLe (a b : String) : Prop := verKey a ≤ verKey b

instance : DecidableRel verLe := fun a b => Nat.decLe (verKey a) (verKey b)

instance : IsTotal String verLe := ⟨fun a b => Nat.le_total (verKey a) (verKey b)⟩

instance : IsTrans String verLe := ⟨fun _ _ _ h1 h2 => le_trans h1 h2⟩

/-- Version resolution of `diff` with no version argument: sort the listed tags by `ver_key`
(a stable sort, like Python `list.sort`) and take the last (`tags[-1]`);
`None` when no tags were listed. -/
def resolveLatestTag (tags : List String) : Option String :=
  match tags with
  | [] => none
  | _ :: _ => (List.insertionSort verLe tags).getLast?

/-! ## Helper lemmas for C8 -/

theorem getLast?_some_mem : ∀ (l : List String) (a : String), l.getLast? = some a → a ∈ l := by
  intro l
  induction l with
  | nil => intro a h; cases h
  | cons x xs ih =>
      intro a h
      cases xs with
      | nil =>
          simp only [List.getLast?_singleton] at h
          simp [Option.some.inj h]
      | cons y ys =>
          rw [List.getLast?_cons_cons] at h
          exact List.mem_cons_of_mem x (ih a h)

theorem getLast?_isSome_of_ne_nil (l : List String) (h : l ≠ []) :
    l.getLast?.isSome = true := by
  rw [List.getLast?_isSome]
  exact h

/-- In a list sorted by `verKey`, the last element has the largest key. -/
theorem sorted_getLast_max : ∀ l : List String, List.Sorted verLe l →
    ∀ t, l.getLast? = some t → ∀ u ∈ l, verKey u ≤ verKey t := by
  intro l
  induction l with
  | nil => intro _ t ht; cases ht
  | cons x xs ih =>
      intro hs t ht u hu
      cases xs with
      | nil =>
          simp only [List.getLast?_singleton] at ht
          rcases List.mem_singleton.mp hu with rfl
          rw [Option.some.inj ht]
      | cons y ys =>
          rw [List.getLast?_cons_cons] at ht
          have hsc := List.sorted_cons.mp hs
          rcases List.mem_cons.mp hu with rfl | hu2
          · have htm : t ∈ y :: ys := getLast?_some_mem _ t ht
            exact hsc.1 t htm
          · exact ih hsc.2 t ht u hu2

/-- Splitting a slash-free list yields a single segment. -/
theorem splitVTag_no_slash : ∀ l : List Char, (∀ c ∈ l, c ≠ '/') →
    ∀ acc, splitVTag l acc = [acc.reverse ++ l] := by
  intro l
  induction l with
  | nil => intro _ acc; simp [splitVTag]
  | cons c cs ih =>
      intro h acc
      cases cs with
      | nil => simp [splitVTag]
      | cons d cs2 =>
          have hc : c ≠ '/' := h c (List.mem_cons_self c _)
          rw [splitVTag, if_neg (fun hx => hc hx.1)]
          rw [ih (fun e he => h e (List.mem_cons_of_mem c he)) (c :: acc)]
          simp

/-- Splitting a slash-free head followed by `"/v"` separates exactly there. -/
theorem splitVTag_across : ∀ l : List Char, (∀ c ∈ l, c ≠ '/') →
    ∀ acc rest, splitVTag (l ++ '/' :: 'v' :: rest) acc =
      (acc.reverse ++ l) :: splitVTag rest [] := by
  intro l
  induction l with
  | nil =>
      intro _ acc rest
      rw [List.nil_append, splitVTag, if_pos ⟨rfl, rfl⟩]
      simp
  | cons c cs ih =>
      intro h acc rest
      have hc : c ≠ '/' := h c (List.mem_cons_self c _)
      cases cs with
      | nil =>
          rw [List.cons_append, List.nil_append, splitVTag, if_neg (fun hx => hc hx.1),
            splitVTag, if_pos ⟨rfl, rfl⟩]
          simp
      | cons d cs2 =>
          rw [List.cons_append, List.cons_append, splitVTag, if_neg (fun hx => hc hx.1)]
          rw [show d :: (cs2 ++ '/' :: 'v' :: rest) = (d :: cs2) ++ '/' :: 'v' :: rest from rfl]
          rw [ih (fun e he => h e (List.mem_cons_of_mem c he)) (c :: acc) rest]
          simp

/-- A tag matching the anchored save pattern has `ver_key` equal to its
numeric suffix (the skill name contains no slash, being a directory name). -/
theorem verKey_of_parse (skill u : String) (v : Nat)
    (hs : ∀ c ∈ skill.data, c ≠ '/') (h : parseVersionTag skill u = some v) :
    verKey u = v := by
  rw [parseVersionTag] at h
  cases hdp : dropPre (skill.data ++ ['/', 'v']) u.data with
  | none => rw [hdp] at h; cases h
  | some rest =>
      rw [hdp] at h
      dsimp only at h
      by_cases hcond : rest ≠ [] ∧ rest.all Char.isDigit
      · rw [if_pos hcond] at h
        have hv : digitsToNat rest = v := Option.some.inj h
        have hu : u.data = skill.data ++ '/' :: 'v' :: rest := by
          have := dropPre_eq_some _ _ _ hdp
          simpa using this
        have hnoslash : ∀ c ∈ rest, c ≠ '/' := by
          intro c hc he
          have hd := hcond.2
          rw [List.all_eq_true] at hd
          have := hd c hc
          rw [he] at this
          exact absurd this (by decide)
        rw [verKey, hu, splitVTag_across skill.data hs [] rest,
          splitVTag_no_slash rest hnoslash []]
        simp only [List.reverse_nil, List.nil_append]
        rw [if_pos hcond, hv]
      · rw [if_neg hcond] at h
        cases h

/-! ## Claim C8 -/

/-- C8: `diff` called without a version argument selects the tag with the
highest version number under numeric comparison of the suffix after `v`
(numeric max, not lexical), whenever at least one tag exists; and for
well-formed tags that numeric key is exactly the parsed version suffix. -/
theorem diff_selects_numeric_max_version (tags : List String) (h : tags ≠ []) :
    (resolveLatestTag tags).isSome = true ∧
    (∀ t, resolveLatestTag tags = some t →
        t ∈ tags ∧ ∀ u ∈ tags, verKey u ≤ verKey t) ∧
    (∀ (skill u : String) (v : Nat), (∀ c ∈ skill.data, c ≠ '/') →
        parseVersionTag skill u = some v → verKey u = v) := by
  have hres : resolveLatestTag tags = (List.insertionSort verLe tags).getLast? := by
    cases tags with
    | nil => exact absurd rfl h
    | cons x xs => rfl
  refine ⟨?_, ?_, fun skill u v hs hp => verKey_of_parse skill u v hs hp⟩
  · rw [hres]
    refine getLast?_isSome_of_ne_nil _ ?_
    intro hnil
    apply h
    have hlen := List.length_insertionSort verLe tags
    rw [hnil] at hlen
    exact List.eq_nil_of_length_eq_zero hlen.symm
  · intro t ht
    rw [hres] at ht
    have htm : t ∈ tags := (List.mem_insertionSort verLe).mp (getLast?_some_mem _ t ht)
    refine ⟨htm, fun u hu => ?_⟩
    exact sorted_getLast_max _ (List.sorted_insertionSort verLe tags) t ht u
      ((List.mem_insertionSort verLe).mpr hu)

/-- C8 witness: with tags `alpha/v9` and `alpha/v10`, the numerically larger
`alpha/v10` is selected (lexically `"alpha/v10" < "alpha/v9"`). -/
theorem diff_selects_numeric_max_version_witness :
    resolveLatestTag ["alpha/v9", "alpha/v10"] = some "alpha/v10" ∧
    verKey "alpha/v9" ≤ verKey "alpha/v10" ∧
    verKey "alpha/v10" = 10 := by
  refine ⟨by decide, ?_, ?_⟩
  · exact (((diff_selects_numeric_max_version ["alpha/v9", "alpha/v10"] (by decide)).2.1
      "alpha/v10" (by decide)).2 "alpha/v9" (by decide))
  · exact (diff_selects_numeric_max_version ["alpha/v9", "alpha/v10"] (by decide)).2.2
      "alpha" "alpha/v10" 10 (by decide) (by decide)

/-! ## Hash cache and change detection (lines 474-627)

A live file is its byte content plus the stat/read outcomes the code
branches on (`stat.st_mtime`, `stat.st_size = len(content)`, whether
`open`/`stat` succeed).  The SHA-256 of `hashlib` is an external
collaborator, abstracted as an arbitrary function `hashFn` on byte lists.
A skill tree is the file list produced by `_get_skill_files` (relative
paths, ignore rules already applied; `rglob` yields distinct paths). -/

structure LiveFile where
  content : List Nat
  mtime : ℚ
  readable : Bool
  statOk : Bool
deriving DecidableEq

/-- The `stat.st_size` of a regular file is its byte length. -/
def LiveFile.size (f : LiveFile) : Nat := f.content.length

/-- One persisted fingerprint: `{"hash": ..., "mtime": ..., "size": ...}`. -/
structure FpEntry where
  hash : String
  mtime : ℚ
  size : Nat
deriving DecidableEq

/-- The on-disk cache file for one skill: missing, unparsable JSON /
unreadable, or a parsed record with a `cache_version`, a `last_backup`
timestamp and an optional `files` mapping. -/
inductive CacheFile
  | absent
  | corrupt
  | parsed (cacheVersion lastBackup : String) (files : Option (List (String × FpEntry)))
deriving DecidableEq

/-- Model of `_load_cache` (lines 474-487) composed with the `"files"` access of its
callers: an absent file, a JSON/OS error, or a `cache_version` mismatch all
yield the empty dict, which (like a parsed dict without a `"files"` key)
gives the callers no fingerprint mapping. -/
def loadCache : CacheFile → Option (List (String × FpEntry))
  | .absent => none
  | .corrupt => none
  | .parsed v _ files => if v = CACHE_VERSION then files else none

/-- Model of `_compute_file_hash` (lines 501-510): SHA-256 of the content, or the
empty string when `open`/`read` raises `OSError`/`PermissionError`. -/
def computeFileHash (hashFn : List Nat → String) (f : LiveFile) : String :=
  if f.readable then hashFn f.content else ""

/-- Dictionary lookup `cached_files.get(rel_path)` (keys are unique). -/
def lookupEntry (rel : String) : List (String × FpEntry) → Option FpEntry
  | [] => none
  | (k, v) :: rest => if rel = k then some v else lookupEntry rel rest

/-- The freshly recomputed fingerprint of a live file (lines 564-569). -/
def freshEntry (hashFn : List Nat → String) (f : LiveFile) : FpEntry :=
  ⟨computeFileHash hashFn f, f.mtime, f.size⟩

/-- Model of `_compute_skill_hash_incremental` (lines 545-573): for each enumerated
file, if `stat` fails skip it (`except ...: continue`); if the cached entry
matches on mtime and size reuse the cached record wholesale; otherwise
recompute the hash. -/
def computeSkillHashIncremental (hashFn : List Nat → String)
    (files : List (String × LiveFile)) (cached : List (String × FpEntry)) :
    List (String × FpEntry) :=
  files.filterMap (fun p =>
    if p.2.statOk then
      some (p.1,
        match lookupEntry p.1 cached with
        | some e =>
            if e.mtime = p.2.mtime ∧ e.size = p.2.size then e else freshEntry hashFn p.2
        | none => freshEntry hashFn p.2)
    else none)

/-- Membership of a key in a key list (Python `in` on dict key sets). -/
def keyMem (k : String) : List String → Bool
  | [] => false
  | x :: xs => if k = x then true else keyMem k xs

/-- Comparison `set(a) == set(b)` on key lists (lines 603-605). -/
def sameKeySet (a b : List String) : Bool :=
  a.all (fun k => keyMem k b) && b.all (fun k => keyMem k a)

/-- One step of the hash-comparison loop (lines 609-612): an entry differs
when the cached record is missing or carries a different hash. -/
def entryDiffers (cached : List (String × FpEntry)) (p : String × FpEntry) : Bool :=
  match lookupEntry p.1 cached with
  | some ce => if p.2.hash = ce.hash then false else true
  | none => true

/-- Model of `_has_changes_fast` (lines 575-615): changed when the snapshot copy is
absent, the cache yields no fingerprint mapping, the counts differ, the key
sets differ, or some hash differs; unchanged otherwise. -/
def hasChangesFast (hashFn : List Nat → String) (snapshotExists : Bool)
    (cache : CacheFile) (files : List (String × LiveFile)) : Bool :=
  if snapshotExists = false then true
  else
    match loadCache cache with
    | none => true
    | some cachedFiles =>
        let current := computeSkillHashIncremental hashFn files cachedFiles
        if current.length ≠ cachedFiles.length then true
        else if sameKeySet (current.map Prod.fst) (cachedFiles.map Prod.fst) = false then true
        else current.any (entryDiffers cachedFiles)

/-- Model of `_update_cache_after_save` (lines 617-626): recompute every fingerprint
from scratch (empty cache passed in) and persist it together with
`cache_version` and a `last_backup` timestamp. -/
def updateCacheAfterSave (hashFn : List Nat → String) (nowIso : String)
    (files : List (String × LiveFile)) : CacheFile :=
  .parsed CACHE_VERSION nowIso (some (computeSkillHashIncremental hashFn files []))

/-! ## Claim C5 -/

/-- C5: `_has_changes_fast` reports changed whenever no prior snapshot
exists, and whenever the cache file is absent, fails to parse, or carries a
format version different from `CACHE_VERSION` — all treated as an empty
cache. -/
theorem has_changes_true_on_missing_snapshot_or_cache
    (hashFn : List Nat → String) (files : List (String × LiveFile)) :
    (∀ cache, hasChangesFast hashFn false cache files = true) ∧
    hasChangesFast hashFn true CacheFile.absent files = true ∧
    hasChangesFast hashFn true CacheFile.corrupt files = true ∧
    (∀ v lb fs, v ≠ CACHE_VERSION →
        hasChangesFast hashFn true (CacheFile.parsed v lb fs) files = true) := by
  refine ⟨fun cache => rfl, rfl, rfl, fun v lb fs hv => ?_⟩
  rw [hasChangesFast]
  simp [loadCache, hv]

/-- C5 witness: an empty tree with a cache written by format version `0.9`
is reported changed. -/
theorem has_changes_true_witness :
    hasChangesFast (fun _ => "") true (CacheFile.parsed "0.9" "t" none) [] = true :=
  (has_changes_true_on_missing_snapshot_or_cache (fun _ => "") []).2.2.2 "0.9" "t" none
    (by decide)

/-! ## Claim C10 -/

/-- C10: `_compute_file_hash` is total — an unreadable file yields the empty
string rather than an exception — so any two unreadable files receive the
same (empty) hash; and `_compute_skill_hash_incremental` silently omits
exactly the files whose `stat` call fails. -/
theorem file_hash_total_and_stat_failures_omitted (hashFn : List Nat → String) :
    (∀ f : LiveFile, f.readable = false → computeFileHash hashFn f = "") ∧
    (∀ f g : LiveFile, f.readable = false → g.readable = false →
        computeFileHash hashFn f = computeFileHash hashFn g) ∧
    (∀ files cached,
        (computeSkillHashIncremental hashFn files cached).map Prod.fst =
          (files.filter (fun p => p.2.statOk)).map Prod.fst) := by
  have hread : ∀ f : LiveFile, f.readable = false → computeFileHash hashFn f = "" := by
    intro f hf
    rw [computeFileHash, hf]
    rfl
  refine ⟨hread, fun f g hf hg => by rw [hread f hf, hread g hg], ?_⟩
  intro files cached
  induction files with
  | nil => rfl
  | cons p ps ih =>
      by_cases hp : p.2.statOk
      · simp [computeSkillHashIncremental, List.filterMap_cons, hp, List.filter_cons] at ih ⊢
        exact ih
      · simp [computeSkillHashIncremental, List.filterMap_cons, hp, List.filter_cons] at ih ⊢
        exact ih

/-- C10 witness: two distinct unreadable files hash to the equal empty
string, and a stat-failing file is omitted from the fingerprint set. -/
theorem file_hash_total_witness :
    computeFileHash (fun _ => "H") ⟨[1, 2], 5, false, true⟩ = "" ∧
    computeFileHash (fun _ => "H") ⟨[1, 2], 5, false, true⟩ =
      computeFileHash (fun _ => "H") ⟨[3], 7, false, true⟩ ∧
    (computeSkillHashIncremental (fun _ => "H")
        [("a", ⟨[1], 0, true, true⟩), ("b", ⟨[2], 0, true, false⟩)] []).map Prod.fst =
      ["a"] := by
  refine ⟨?_, ?_, ?_⟩
  · exact (file_hash_total_and_stat_failures_omitted (fun _ => "H")).1
      ⟨[1, 2], 5, false, true⟩ rfl
  · exact (file_hash_total_and_stat_failures_omitted (fun _ => "H")).2.1
      ⟨[1, 2], 5, false, true⟩ ⟨[3], 7, false, true⟩ rfl rfl
  · rw [(file_hash_total_and_stat_failures_omitted (fun _ => "H")).2.2
      [("a", ⟨[1], 0, true, true⟩), ("b", ⟨[2], 0, true, false⟩)] []]
    rfl

/-! ## Helper lemmas: incremental rehash of an unchanged tree -/

/-- Keys of the incremental computation: exactly the stat-succeeding files,
in order. -/
theorem cshi_keys (hashFn : List Nat → String) :
    ∀ (files : List (String × LiveFile)) (cached : List (String × FpEntry)),
    (computeSkillHashIncremental hashFn files cached).map Prod.fst =
      (files.filter (fun p => p.2.statOk)).map Prod.fst := by
  intro files cached
  induction files with
  | nil => rfl
  | cons p ps ih =>
      by_cases hp : p.2.statOk
      · simp [computeSkillHashIncremental, List.filterMap_cons, hp, List.filter_cons] at ih ⊢
        exact ih
      · simp [computeSkillHashIncremental, List.filterMap_cons, hp, List.filter_cons] at ih ⊢
        exact ih

theorem cshi_keys_nodup (hashFn : List Nat → String)
    (files : List (String × LiveFile)) (cached : List (String × FpEntry))
    (hnodup : (files.map Prod.fst).Nodup) :
    ((computeSkillHashIncremental hashFn files cached).map Prod.fst).Nodup := by
  rw [cshi_keys]
  exact List.Nodup.sublist (List.Sublist.map Prod.fst (List.filter_sublist files)) hnodup

/-- Unfolding the incremental pass one file at a time. -/
theorem cshi_cons (hashFn : List Nat → String) (p : String × LiveFile)
    (ps : List (String × LiveFile)) (cached : List (String × FpEntry)) :
    computeSkillHashIncremental hashFn (p :: ps) cached =
      if p.2.statOk then
        (p.1,
          match lookupEntry p.1 cached with
          | some e =>
              if e.mtime = p.2.mtime ∧ e.size = p.2.size then e else freshEntry hashFn p.2
          | none => freshEntry hashFn p.2) ::
          computeSkillHashIncremental hashFn ps cached
      else computeSkillHashIncremental hashFn ps cached := by
  rw [computeSkillHashIncremental, List.filterMap_cons]
  by_cases hp : p.2.statOk
  · simp [hp, computeSkillHashIncremental]
  · simp [hp, computeSkillHashIncremental]

/-- With an empty cache every fingerprint is recomputed from scratch. -/
theorem cshi_nil_cons (hashFn : List Nat → String) (p : String × LiveFile)
    (ps : List (String × LiveFile)) (hp : p.2.statOk = true) :
    computeSkillHashIncremental hashFn (p :: ps) [] =
      (p.1, freshEntry hashFn p.2) :: computeSkillHashIncremental hashFn ps [] := by
  rw [cshi_cons, if_pos hp]
  rfl

/-- When the cache hit returns exactly the fresh entry, the mtime+size check
succeeds and the reused record equals the fresh one. -/
theorem cshi_cons_hit (hashFn : List Nat → String) (q : String × LiveFile)
    (ps : List (String × LiveFile)) (cached : List (String × FpEntry))
    (hq : q.2.statOk = true)
    (hl : lookupEntry q.1 cached = some (freshEntry hashFn q.2)) :
    computeSkillHashIncremental hashFn (q :: ps) cached =
      (q.1, freshEntry hashFn q.2) :: computeSkillHashIncremental hashFn ps cached := by
  rw [cshi_cons, if_pos hq]
  simp only [hl]
  rw [if_pos ⟨rfl, rfl⟩]

/-- Looking up a live file in the fingerprints recomputed from scratch
yields its fresh entry (relative paths being unique). -/
theorem lookupEntry_base (hashFn : List Nat → String) :
    ∀ files : List (String × LiveFile), (files.map Prod.fst).Nodup →
    ∀ rel f, (rel, f) ∈ files → f.statOk = true →
    lookupEntry rel (computeSkillHashIncremental hashFn files []) =
      some (freshEntry hashFn f) := by
  intro files
  induction files with
  | nil => intro _ rel f hm; cases hm
  | cons q qs ih =>
      intro hnodup rel f hm hst
      rw [List.map_cons, List.nodup_cons] at hnodup
      rcases List.mem_cons.mp hm with heq | hmem
      · subst heq
        rw [cshi_nil_cons hashFn (rel, f) qs hst, lookupEntry, if_pos rfl]
      · have hrel : rel ≠ q.1 := by
          intro he
          exact hnodup.1 (he ▸ List.mem_map_of_mem Prod.fst hmem)
        by_cases hq : q.2.statOk
        · rw [cshi_nil_cons hashFn q qs hq, lookupEntry, if_neg hrel]
          exact ih hnodup.2 rel f hmem hst
        · rw [cshi_cons, if_neg hq]
          exact ih hnodup.2 rel f hmem hst

/-- If the cache already holds the fresh entry of every stat-succeeding live
file, the incremental pass reproduces the from-scratch pass (each mtime+size
check hits and reuses the identical record). -/
theorem cshi_cached_eq (hashFn : List Nat → String) :
    ∀ (files : List (String × LiveFile)) (cached : List (String × FpEntry)),
    (∀ rel f, (rel, f) ∈ files → f.statOk = true →
        lookupEntry rel cached = some (freshEntry hashFn f)) →
    computeSkillHashIncremental hashFn files cached =
      computeSkillHashIncremental hashFn files [] := by
  intro files cached
  induction files with
  | nil => intro _; rfl
  | cons q qs ih =>
      intro hall
      have htail := fun rel f hm hs => hall rel f (List.mem_cons_of_mem q hm) hs
      by_cases hq : q.2.statOk
      · have hqmem : (q.1, q.2) ∈ q :: qs := by
          rw [Prod.mk.eta]
          exact List.mem_cons_self q qs
        have hq1 := hall q.1 q.2 hqmem hq
        rw [cshi_cons_hit hashFn q qs cached hq hq1, cshi_nil_cons hashFn q qs hq, ih htail]
      · rw [cshi_cons, if_neg hq, cshi_cons, if_neg hq, ih htail]

/-- Recomputing against the just-written cache changes nothing. -/
theorem cshi_idempotent (hashFn : List Nat → String)
    (files : List (String × LiveFile)) (hnodup : (files.map Prod.fst).Nodup) :
    computeSkillHashIncremental hashFn files (computeSkillHashIncremental hashFn files []) =
      computeSkillHashIncremental hashFn files [] :=
  cshi_cached_eq hashFn files _
    (fun rel f hm hs => lookupEntry_base hashFn files hnodup rel f hm hs)

theorem lookupEntry_self : ∀ l : List (String × FpEntry), (l.map Prod.fst).Nodup →
    ∀ p ∈ l, lookupEntry p.1 l = some p.2 := by
  intro l
  induction l with
  | nil => intro _ p hp; cases hp
  | cons q qs ih =>
      intro hnodup p hp
      rw [List.map_cons, List.nodup_cons] at hnodup
      rcases List.mem_cons.mp hp with heq | hmem
      · rw [heq, lookupEntry, if_pos rfl]
      · have hne : p.1 ≠ q.1 := by
          intro he
          exact hnodup.1 (he ▸ List.mem_map_of_mem Prod.fst hmem)
        rw [lookupEntry, if_neg hne]
        exact ih hnodup.2 p hmem

theorem keyMem_iff (k : String) : ∀ l : List String, keyMem k l = true ↔ k ∈ l := by
  intro l
  induction l with
  | nil => simp [keyMem]
  | cons x xs ih =>
      by_cases hx : k = x
      · simp [keyMem, hx]
      · simp [keyMem, hx, ih]

theorem sameKeySet_self (l : List String) : sameKeySet l l = true := by
  rw [sameKeySet, Bool.and_eq_true]
  constructor <;>
    exact List.all_eq_true.mpr (fun k hk => (keyMem_iff k l).mpr hk)

theorem any_entryDiffers_self (l : List (String × FpEntry))
    (hnodup : (l.map Prod.fst).Nodup) : l.any (entryDiffers l) = false := by
  rw [List.any_eq_false]
  intro p hp
  rw [entryDiffers, lookupEntry_self l hnodup p hp]
  simp

/-- After `_update_cache_after_save`, an unchanged tree passes the fast
check: `_has_changes_fast` is false. -/
theorem hasChangesFast_after_update (hashFn : List Nat → String) (nowIso : String)
    (files : List (String × LiveFile)) (hnodup : (files.map Prod.fst).Nodup) :
    hasChangesFast hashFn true (updateCacheAfterSave hashFn nowIso files) files = false := by
  have hload : loadCache (updateCacheAfterSave hashFn nowIso files) =
      some (computeSkillHashIncremental hashFn files []) := by
    rw [updateCacheAfterSave, loadCache, if_pos rfl]
  rw [hasChangesFast]
  simp only [hload, cshi_idempotent hashFn files hnodup]
  rw [if_neg (by decide)]
  rw [if_neg (by simp), if_neg (by simp [sameKeySet_self])]
  exact any_entryDiffers_self _ (cshi_keys_nodup hashFn files _ hnodup)

/-! ## Save workflow (`save` lines 686-714, `_save_impl` lines 716-833)

The repository state visible to one skill: whether its working-tree copy
exists in the local repo, its cache file, the listed tags, the number of
commits, and the committed (`HEAD`) content of its directory.  `stat`-level
guards (`skill_path.exists()`, `.git` presence, network reachability,
commit success) are the explicit flags `skillExists`, `repoInit`, `netOk`,
`commitOk`. -/

abbrev Tree := List (String × List Nat)

structure SkillRepo where
  snapshotExists : Bool
  cache : CacheFile
  tags : List String
  commitCount : Nat
  head : Option Tree
deriving DecidableEq

/-- The staged copy of the skill after the wholesale remove-then-copy
(lines 771-805): the live files and their byte contents. -/
def stagedTree (files : List (String × LiveFile)) : Tree :=
  files.map (fun p => (p.1, p.2.content))

/-- Predicate for `git diff --cached --quiet` returncode 0 (line 808): the staged content
is byte-identical to the committed state of the skill directory. -/
def stagedClean (head : Option Tree) (staged : Tree) : Bool :=
  match head with
  | some h => if staged = h then true else false
  | none => if staged = [] then true else false

/-- Model of `_save_impl` (lines 716-833).  Control flow in source order: existence
and init guards, optional remote sync, fast change check, version
allocation (which has no effect on the no-diff branch), copy + stage, the
staged-diff check (update cache, report no snapshot), then commit + tag +
push + cache update. -/
def saveImpl (hashFn : List Nat → String) (nowIso skill : String)
    (files : List (String × LiveFile)) (syncRemote skipFastCheck : Bool)
    (skillExists repoInit netOk commitOk : Bool) (repo : SkillRepo) :
    Except String Bool × SkillRepo :=
  if skillExists = false then (.error skillNotFoundMsg, repo)
  else if repoInit = false then (.error repoNotInitMsg, repo)
  else if syncRemote = true ∧ netOk = false then (.error networkMsg, repo)
  else if skipFastCheck = false ∧
      hasChangesFast hashFn repo.snapshotExists repo.cache files = false then
    (.ok false, repo)
  else if stagedClean repo.head (stagedTree files) = true then
    (.ok false,
      { repo with
          snapshotExists := true,
          cache := updateCacheAfterSave hashFn nowIso files })
  else if commitOk = false then
    (.error commitFailMsg, { repo with snapshotExists := true })
  else
    (.ok true, { repo with
        snapshotExists := true,
        head := some (stagedTree files),
        commitCount := repo.commitCount + 1,
        tags := repo.tags ++ [skill ++ "/v" ++ toString (nextVersion skill repo.tags)],
        cache := updateCacheAfterSave hashFn nowIso files })

/-- Model of `save` (lines 686-714): self-protection guard, lock acquisition (raise
on failure, before the `try`), `_save_impl`, guaranteed `_release_lock` in
`finally`. -/
def save (hashFn : List Nat → String) (env : LockEnv) (skill : String)
    (files : List (String × LiveFile)) (syncRemote skipFastCheck : Bool)
    (skillExists repoInit netOk commitOk : Bool)
    (lockFile : Option FsLock) (repo : SkillRepo) :
    Except String Bool × Option FsLock × SkillRepo :=
  if skill = SELF_SKILL_NAME then (.error selfSaveMsg, lockFile, repo)
  else
    match acquireLock env lockFile with
    | (false, lf) => (.error lockConflictMsg, lf, repo)
    | (true, _) =>
        let r := saveImpl hashFn env.nowIso skill files syncRemote skipFastCheck
          skillExists repoInit netOk commitOk repo
        (r.1, releaseLock (some (lockRecord env)), r.2)

/-- With all backend guards passing, `_save_impl` reduces to its three
outcome branches. -/
theorem saveImpl_normal (hashFn : List Nat → String) (nowIso skill : String)
    (files : List (String × LiveFile)) (repo : SkillRepo) :
    saveImpl hashFn nowIso skill files true false true true true true repo =
      (if hasChangesFast hashFn repo.snapshotExists repo.cache files = false then
        (.ok false, repo)
      else if stagedClean repo.head (stagedTree files) = true then
        (.ok false,
          { repo with
              snapshotExists := true,
              cache := updateCacheAfterSave hashFn nowIso files })
      else
        (.ok true, { repo with
            snapshotExists := true,
            head := some (stagedTree files),
            commitCount := repo.commitCount + 1,
            tags := repo.tags ++ [skill ++ "/v" ++ toString (nextVersion skill repo.tags)],
            cache := updateCacheAfterSave hashFn nowIso files })) := by
  rw [saveImpl]
  simp

/-- A normal `save` is: acquire the free lock, run `_save_impl`, release. -/
theorem save_unfold (hashFn : List Nat → String) (env : LockEnv) (skill : String)
    (files : List (String × LiveFile)) (repo : SkillRepo) (hself : skill ≠ SELF_SKILL_NAME) :
    save hashFn env skill files true false true true true true none repo =
      ((saveImpl hashFn env.nowIso skill files true false true true true true repo).1, none,
       (saveImpl hashFn env.nowIso skill files true false true true true true repo).2) := by
  rw [save, if_neg hself]
  rfl

/-! ## Claim C4 -/

/-- C4: saving twice in a row with no intervening filesystem change yields
`created = false` on the second save, with the repository (commits, tags,
cache) left untouched by that second save; and whenever staged content is
byte-identical to the last commit, the cache is still updated before
reporting that no snapshot was created. -/
theorem save_twice_no_change_second_false
    (hashFn : List Nat → String) (env1 env2 : LockEnv) (skill : String)
    (files : List (String × LiveFile)) (repo0 : SkillRepo)
    (hself : skill ≠ SELF_SKILL_NAME)
    (hnodup : (files.map Prod.fst).Nodup) :
    (∃ (c : Bool) (repo1 : SkillRepo),
      save hashFn env1 skill files true false true true true true none repo0 =
        (.ok c, none, repo1) ∧
      save hashFn env2 skill files true false true true true true none repo1 =
        (.ok false, none, repo1)) ∧
    (∀ (nowIso : String) (repo' : SkillRepo),
      stagedClean repo'.head (stagedTree files) = true →
      saveImpl hashFn nowIso skill files true true true true true true repo' =
        (.ok false,
          { repo' with
              snapshotExists := true,
              cache := updateCacheAfterSave hashFn nowIso files })) := by
  constructor
  · have hunf1 := save_unfold hashFn env1 skill files repo0 hself
    by_cases hfc : hasChangesFast hashFn repo0.snapshotExists repo0.cache files = false
    · refine ⟨false, repo0, ?_, ?_⟩
      · rw [hunf1, saveImpl_normal, if_pos hfc]
      · rw [save_unfold hashFn env2 skill files repo0 hself, saveImpl_normal, if_pos hfc]
    · by_cases hsc : stagedClean repo0.head (stagedTree files) = true
      · refine ⟨false,
          { repo0 with
              snapshotExists := true,
              cache := updateCacheAfterSave hashFn env1.nowIso files }, ?_, ?_⟩
        · rw [hunf1, saveImpl_normal, if_neg hfc, if_pos hsc]
        · rw [save_unfold hashFn env2 skill files _ hself, saveImpl_normal,
            if_pos (hasChangesFast_after_update hashFn env1.nowIso files hnodup)]
      · refine ⟨true, { repo0 with
            snapshotExists := true,
            head := some (stagedTree files),
            commitCount := repo0.commitCount + 1,
            tags := repo0.tags ++ [skill ++ "/v" ++ toString (nextVersion skill repo0.tags)],
            cache := updateCacheAfterSave hashFn env1.nowIso files }, ?_, ?_⟩
        · rw [hunf1, saveImpl_normal, if_neg hfc, if_neg hsc]
        · rw [save_unfold hashFn env2 skill files _ hself, saveImpl_normal,
            if_pos (hasChangesFast_after_update hashFn env1.nowIso files hnodup)]
  · intro nowIso repo' hstage
    rw [saveImpl]
    simp [hstage]

/-- C4 witness: a one-file tree whose staged content equals the committed
content — the save reports no snapshot created and still refreshes the
cache. -/
theorem save_twice_witness :
    saveImpl (fun _ => "H") "2024" "alpha"
        [("SKILL.md", ⟨[118, 49], 10, true, true⟩)] true true true true true true
        ⟨false, .absent, [], 0, some [("SKILL.md", [118, 49])]⟩ =
      (.ok false, ⟨true, updateCacheAfterSave (fun _ => "H") "2024"
          [("SKILL.md", ⟨[118, 49], 10, true, true⟩)], [], 0,
        some [("SKILL.md", [118, 49])]⟩) :=
  (save_twice_no_change_second_false (fun _ => "H") ⟨0, 0, "e"⟩ ⟨0, 0, "e"⟩ "alpha"
      [("SKILL.md", ⟨[118, 49], 10, true, true⟩)]
      ⟨false, .absent, [], 0, some [("SKILL.md", [118, 49])]⟩
      (by decide) (by decide)).2 "2024"
    ⟨false, .absent, [], 0, some [("SKILL.md", [118, 49])]⟩ (by decide)

/-! ## Restore (`restore` lines 864-891, `_restore_impl` lines 893-966)

The live destination (`skills_dir/skill`) and the materialized snapshot
content are explicit `Option Tree`s.  The copy step (`shutil.copytree`,
line 944) is the one external operation allowed to fail mid-way; its outcome
is a `CopyOutcome` parameter: success, or failure after writing some partial
destination content. -/

inductive CopyOutcome
  | ok
  | fail (halfWritten : Option Tree) (err : String)
deriving DecidableEq

/-- Model of `_restore_impl` for a supplied version.  Returns
`(error, destination content, remaining backup)`.

* network check (lines 896-898);
* tag resolution `"v1"` vs `"skill/v1"` (lines 901-904) and existence check
   via `git rev-parse` (lines 914-917);
* source materialization check (lines 925-927);
* backup-swap (lines 932-940): an existing destination is moved aside
   (the model assumes the move itself succeeds);
* copy (line 944): on success the destination holds the snapshot content
   and the backup is deleted (lines 956-958);
* rollback (lines 946-953): on failure the partial destination is removed
   (`shutil.rmtree`), the backup is moved back, and the original error is
   re-raised. -/
def restoreImpl (skill version : String) (netOk : Bool) (tags : List String)
    (src : Option Tree) (outcome : CopyOutcome) (dest : Option Tree) :
    Option String × Option Tree × Option Tree :=
  if netOk = false then (some networkMsg, dest, none)
  else if keyMem (if startsWithStr version (skill ++ "/") = true then version
      else skill ++ "/" ++ version) tags = false then
    (some tagNotFoundMsg, dest, none)
  else
    match src with
    | none => (some snapshotContentMissingMsg, dest, none)
    | some s =>
        match dest, outcome with
        | some _, CopyOutcome.ok => (none, some s, none)
        | some d, CopyOutcome.fail _ e => (some e, some d, none)
        | none, CopyOutcome.ok => (none, some s, none)
        | none, CopyOutcome.fail _ e => (some e, none, none)

structure RestoreOutcome where
  err : Option String
  listedOnly : Bool
  lockFile : Option FsLock
  dest : Option Tree
  backupRemaining : Option Tree
deriving DecidableEq

/-- Model of `restore` (lines 864-891): self-protection guard, list-only mode when no
version is given, lock acquisition, `_restore_impl`, guaranteed release in
`finally` (also on the error paths, since `sys.exit` raises through it). -/
def restore (env : LockEnv) (skill : String) (version : Option String) (netOk : Bool)
    (tags : List String) (src : Option Tree) (outcome : CopyOutcome)
    (lockFile : Option FsLock) (dest : Option Tree) : RestoreOutcome :=
  if skill = SELF_SKILL_NAME then ⟨some selfRestoreMsg, false, lockFile, dest, none⟩
  else
    match version with
    | none => ⟨none, true, lockFile, dest, none⟩
    | some v =>
        match acquireLock env lockFile with
        | (false, lf) => ⟨some lockConflictMsg, false, lf, dest, none⟩
        | (true, _) =>
            match restoreImpl skill v netOk tags src outcome dest with
            | (err, dest2, bak) =>
                ⟨err, false, releaseLock (some (lockRecord env)), dest2, bak⟩

/-! ## Claim C2 -/

/-- C2: when the live destination existed and the copy step fails, the
partial destination is deleted, the backup is moved back into place and the
original failure is surfaced: the destination afterwards holds exactly its
pre-restore content, and no backup directory is left behind. -/
theorem restore_copy_failure_rolls_back
    (env : LockEnv) (skill version : String) (tags : List String)
    (src d : Tree) (halfWritten : Option Tree) (e : String)
    (hself : skill ≠ SELF_SKILL_NAME)
    (htag : keyMem (if startsWithStr version (skill ++ "/") = true then version
        else skill ++ "/" ++ version) tags = true) :
    restore env skill (some version) true tags (some src)
        (CopyOutcome.fail halfWritten e) none (some d) =
      ⟨some e, false, none, some d, none⟩ := by
  have himpl : restoreImpl skill version true tags (some src)
      (CopyOutcome.fail halfWritten e) (some d) = (some e, some d, none) := by
    rw [restoreImpl, if_neg (by decide), if_neg (by simp [htag])]
  simp only [restore, if_neg hself, acquireLock, himpl, releaseLock]

/-- C2 witness: restoring `alpha` to `v1` over an existing live tree with an
injected copy failure leaves the live tree byte-identical to its pre-restore
content and surfaces the failure. -/
theorem restore_copy_failure_witness :
    restore ⟨0, 7, "T"⟩ "alpha" (some "v1") true ["alpha/v1"]
        (some [("SKILL.md", [118, 50])])
        (CopyOutcome.fail (some [("SKILL.md", [118])]) "copy failed")
        none (some [("SKILL.md", [118, 49])]) =
      ⟨some "copy failed", false, none, some [("SKILL.md", [118, 49])], none⟩ :=
  restore_copy_failure_rolls_back ⟨0, 7, "T"⟩ "alpha" "v1" ["alpha/v1"]
    [("SKILL.md", [118, 50])] [("SKILL.md", [118, 49])] (some [("SKILL.md", [118])])
    "copy failed" (by decide) (by decide)

/-! ## Delete (`delete_snapshot` lines 968-985, `_delete_snapshot_impl`
lines 987-1030) -/

/-- Existence check (`git rev-parse`, lines 1011-1014), local tag deletion
(lines 1017-1020) and the remote deletion attempt (lines 1024-1028), whose
issued tags are recorded. -/
def deleteTag (fullTag : String) (tags : List String) :
    Option String × List String × List String :=
  if keyMem fullTag tags = false then (some tagNotFoundMsg, tags, [])
  else (none, tags.erase fullTag, [fullTag])

/-- Model of `_delete_snapshot_impl`: network check, then the full-tag resolution of
lines 994-1006 — a version already prefixed by `skill ++ "/"` is taken as
is; any other version containing `/` is rejected as a dangerous cross-skill
mismatch before any deletion; otherwise the namespaced tag is formed. -/
def deleteSnapshotImpl (skill version : String) (netOk : Bool) (tags : List String) :
    Option String × List String × List String :=
  if netOk = false then (some networkMsg, tags, [])
  else if startsWithStr version (skill ++ "/") = true then deleteTag version tags
  else if strContainsChar version '/' = true then (some versionMismatchMsg, tags, [])
  else deleteTag (skill ++ "/" ++ version) tags

structure DeleteOutcome where
  err : Option String
  lockFile : Option FsLock
  tags : List String
  remoteDeleted : List String
deriving DecidableEq

/-- Model of `delete_snapshot` (lines 968-985): self-protection guard, lock, impl,
guaranteed release. -/
def deleteSnapshot (env : LockEnv) (skill version : String) (netOk : Bool)
    (lockFile : Option FsLock) (tags : List String) : DeleteOutcome :=
  if skill = SELF_SKILL_NAME then ⟨some selfDeleteMsg, lockFile, tags, []⟩
  else
    match acquireLock env lockFile with
    | (false, lf) => ⟨some lockConflictMsg, lf, tags, []⟩
    | (true, _) =>
        match deleteSnapshotImpl skill version netOk tags with
        | (err, tags2, rd) => ⟨err, releaseLock (some (lockRecord env)), tags2, rd⟩

/-! ## Claim C9 -/

/-- C9: a delete whose version argument contains a slash but does not start
with `skill ++ "/"` fails with an error while the tag list is unchanged and
no remote deletion is issued — a version naming a different tree can never
delete the tag of that tree. -/
theorem delete_cross_skill_version_rejected
    (env : LockEnv) (skill version : String) (tags : List String)
    (hself : skill ≠ SELF_SKILL_NAME)
    (h1 : strContainsChar version '/' = true)
    (h2 : startsWithStr version (skill ++ "/") = false) :
    deleteSnapshot env skill version true none tags =
      ⟨some versionMismatchMsg, none, tags, []⟩ := by
  have himpl : deleteSnapshotImpl skill version true tags =
      (some versionMismatchMsg, tags, []) := by
    rw [deleteSnapshotImpl, if_neg (by decide), if_neg (by simp [h2]), if_pos h1]
  simp only [deleteSnapshot, if_neg hself, acquireLock, himpl, releaseLock]

/-- C9 witness: `delete("alpha", "beta/v1")` fails with the mismatch error
and deletes no tag, locally or remotely. -/
theorem delete_cross_skill_version_witness :
    deleteSnapshot ⟨0, 7, "T"⟩ "alpha" "beta/v1" true none ["alpha/v1", "beta/v1"] =
      ⟨some versionMismatchMsg, none, ["alpha/v1", "beta/v1"], []⟩ :=
  delete_cross_skill_version_rejected ⟨0, 7, "T"⟩ "alpha" "beta/v1"
    ["alpha/v1", "beta/v1"] (by decide) (by decide) (by decide)

/-! ## Claim C7 -/

/-- C7: `save`, `restore` and `delete` invoked on the reserved self-name
(`skill-snapshot`) are rejected immediately with an error, before any lock
is taken (the lock file is returned untouched) and before any repository,
tag, cache or live-tree state is modified. -/
theorem self_name_rejected_before_lock_or_mutation
    (hashFn : List Nat → String) (env : LockEnv) (files : List (String × LiveFile))
    (syncRemote skipFastCheck skillExists repoInit netOk commitOk : Bool)
    (lockFile : Option FsLock) (repo : SkillRepo) (version : String)
    (voption : Option String) (tags : List String) (src : Option Tree)
    (outcome : CopyOutcome) (dest : Option Tree) :
    save hashFn env SELF_SKILL_NAME files syncRemote skipFastCheck skillExists repoInit
        netOk commitOk lockFile repo = (.error selfSaveMsg, lockFile, repo) ∧
    restore env SELF_SKILL_NAME voption netOk tags src outcome lockFile dest =
      ⟨some selfRestoreMsg, false, lockFile, dest, none⟩ ∧
    deleteSnapshot env SELF_SKILL_NAME version netOk lockFile tags =
      ⟨some selfDeleteMsg, lockFile, tags, []⟩ := by
  refine ⟨?_, ?_, ?_⟩ <;> simp [save, restore, deleteSnapshot]

/-! ## Batch backup (`backup_all` lines 1032-1147)

`backup_all` acquires the lock, checks the network and syncs once, scans the
skills directory (the filesystem-level scan conditions are abstracted; the
self-skill exclusion of line 1081 is kept), pre-scans with
`_has_changes_fast`, and then calls `self.save(skill, message,
sync_remote=False, skip_fast_check=True)` per changed skill, catching any
`SnapshotError` per tree.  Each scanned skill carries its own repository
view. -/

structure SkillItem where
  name : String
  files : List (String × LiveFile)
  repo : SkillRepo

structure BatchOutcome where
  err : Option String
  results : List (String × Except String Bool)
  successCount : Nat
  lockFile : Option FsLock

/-- One iteration of the backup loop (lines 1124-1134): run `save` on the
current lock-file state, record the per-tree outcome or caught error, and
count created snapshots. -/
def backupStep (hashFn : List Nat → String) (env : LockEnv)
    (repoInit netOk commitOk : Bool)
    (acc : Option FsLock × List (String × Except String Bool) × Nat) (it : SkillItem) :
    Option FsLock × List (String × Except String Bool) × Nat :=
  match save hashFn env it.name it.files false true true repoInit netOk commitOk
      acc.1 it.repo with
  | (Except.ok created, lf, _) =>
      (lf, acc.2.1 ++ [(it.name, Except.ok created)],
       if created then acc.2.2 + 1 else acc.2.2)
  | (Except.error e, lf, _) =>
      (lf, acc.2.1 ++ [(it.name, Except.error e)], acc.2.2)

/-- Model of `backup_all`. -/
def backupAll (hashFn : List Nat → String) (env : LockEnv)
    (netOk repoInit commitOk : Bool) (items : List SkillItem)
    (lockFile : Option FsLock) : BatchOutcome :=
  match acquireLock env lockFile with
  | (false, lf) => ⟨some lockConflictMsg, [], 0, lf⟩
  | (true, lf) =>
      if netOk = false then ⟨some networkMsg, [], 0, releaseLock lf⟩
      else
        match ((items.filter fun it =>
              if it.name = SELF_SKILL_NAME then false else true).filter fun it =>
                hasChangesFast hashFn it.repo.snapshotExists it.repo.cache it.files).foldl
            (backupStep hashFn env repoInit netOk commitOk) (lf, [], 0) with
        | (lfF, results, cnt) => ⟨none, results, cnt, releaseLock lfF⟩

/-- The lock file `backup_all` itself just wrote is younger than the
staleness threshold, so a nested `_acquire_lock` fails. -/
theorem acquireLock_fresh_self (env : LockEnv) (c : String) :
    acquireLock env (some ⟨env.now, c⟩) = (false, some ⟨env.now, c⟩) := by
  have h : ¬(env.now - env.now > STALE_LOCK_SECONDS) := by
    rw [sub_self]
    unfold STALE_LOCK_SECONDS
    norm_num
  simp only [acquireLock]
  rw [if_neg h]

/-- A `save` attempted while the lock written at the current time is held
raises the lock-conflict error before touching any state. -/
theorem save_locked (hashFn : List Nat → String) (env : LockEnv) (skill : String)
    (files : List (String × LiveFile)) (syncRemote skipFastCheck : Bool)
    (skillExists repoInit netOk commitOk : Bool) (c : String) (repo : SkillRepo)
    (hself : skill ≠ SELF_SKILL_NAME) :
    save hashFn env skill files syncRemote skipFastCheck skillExists repoInit netOk
        commitOk (some ⟨env.now, c⟩) repo =
      (.error lockConflictMsg, some ⟨env.now, c⟩, repo) := by
  rw [save, if_neg hself, acquireLock_fresh_self env c]

/-- Folding the backup loop from a freshly written lock: every per-tree save
fails with the lock conflict and nothing is created. -/
theorem backupStep_fold_locked (hashFn : List Nat → String) (env : LockEnv)
    (repoInit netOk commitOk : Bool) :
    ∀ its : List SkillItem, (∀ it ∈ its, it.name ≠ SELF_SKILL_NAME) →
    ∀ (c : String) (results : List (String × Except String Bool)) (cnt : Nat),
    its.foldl (backupStep hashFn env repoInit netOk commitOk)
        (some ⟨env.now, c⟩, results, cnt) =
      (some ⟨env.now, c⟩,
       results ++ its.map (fun it => (it.name, Except.error lockConflictMsg)), cnt) := by
  intro its
  induction its with
  | nil => intro _ c results cnt; simp
  | cons it rest ih =>
      intro hall c results cnt
      rw [List.foldl_cons]
      have hstep : backupStep hashFn env repoInit netOk commitOk
          (some ⟨env.now, c⟩, results, cnt) it =
          (some ⟨env.now, c⟩, results ++ [(it.name, Except.error lockConflictMsg)], cnt) := by
        rw [backupStep]
        rw [save_locked hashFn env it.name it.files false true true repoInit netOk
          commitOk c it.repo (hall it (List.mem_cons_self it rest))]
      rw [hstep, ih (fun x hx => hall x (List.mem_cons_of_mem it hx)) c _ cnt]
      simp

/-! ## Claim C1 -/

/-- C1 (code bug): `backup_all`, started with no pre-existing lock, acquires
the lock once — but then every per-tree `save` re-runs `_acquire_lock`,
finds the fresh lock file of the batch itself, and raises the lock-conflict error
before saving anything: the result for each changed tree is the caught
`SnapshotError` and the success count is 0, with the claimed
`created = true` never reached, regardless of the backend flags. -/
theorem backup_all_per_tree_save_lock_conflict
    (hashFn : List Nat → String) (env : LockEnv) (repoInit commitOk : Bool)
    (items : List SkillItem) :
    backupAll hashFn env true repoInit commitOk items none =
      ⟨none,
       ((items.filter fun it => if it.name = SELF_SKILL_NAME then false else true).filter
           fun it =>
             hasChangesFast hashFn it.repo.snapshotExists it.repo.cache it.files).map
         (fun it => (it.name, Except.error lockConflictMsg)),
       0, none⟩ := by
  have hall : ∀ it ∈ ((items.filter fun it =>
      if it.name = SELF_SKILL_NAME then false else true).filter fun it =>
        hasChangesFast hashFn it.repo.snapshotExists it.repo.cache it.files),
      it.name ≠ SELF_SKILL_NAME := by
    intro it hit he
    have h1 := (List.mem_filter.mp (List.mem_filter.mp hit).1).2
    rw [if_pos he] at h1
    cases h1
  have hf := backupStep_fold_locked hashFn env repoInit true commitOk _ hall
    (toString env.pid ++ "\n" ++ env.nowIso) [] 0
  simp only [backupAll, acquireLock, lockRecord, releaseLock, hf]
  simp

end SkillSnapshot
